import Mathlib

/-!
Verification of the declaration compiler of the `bounded-integer` crate
(`src/macro/src/lib.rs`): the constant-expression evaluator `eval_expr`,
the representation selector `Repr::smallest_repr` / `Repr::minimum` /
`Repr::maximum` / `ReprSizeFixed::from_bits`, and the range-resolution part
of `<BoundedInteger as Parse>::parse`.

The Rust code computes over `num_bigint::BigInt` (arbitrary-precision
integers), modelled here as `Int`.  `BigInt` arithmetic semantics used by the
code:
* `/` i.e. `checked_div` truncates the quotient toward zero and returns
  `None` exactly when the divisor is zero;
* `%` is the truncated remainder (sign of the dividend) and panics when the
  divisor is zero;
* `!`, `^`, `&`, `|` act on the two's-complement extension to unbounded
  width (`!x = -x - 1`);
* `BigInt::bits()` is the bit length of the magnitude (`bits(0) = 0`);
* `BigInt::sign() == Sign::Minus` holds exactly for negative values.
-/

set_option maxRecDepth 100000

namespace BoundedInt

/-- Decidable equality for `Except`, needed to evaluate results by `decide`. -/
instance instDecEqExcept {ε α : Type} [DecidableEq ε] [DecidableEq α] :
    DecidableEq (Except ε α) := fun x y =>
  match x, y with
  | .ok a, .ok b =>
    if h : a = b then isTrue (congrArg Except.ok h)
    else isFalse (fun he => h (Except.ok.inj he))
  | .error a, .error b =>
    if h : a = b then isTrue (congrArg Except.error h)
    else isFalse (fun he => h (Except.error.inj he))
  | .ok _, .error _ => isFalse (fun he => Except.noConfusion he)
  | .error _, .ok _ => isFalse (fun he => Except.noConfusion he)

/-! ## Arbitrary-precision integer primitives (model of `num_bigint::BigInt`) -/

/-- Fuel-driven bit counter: with fuel at least `n`, counts how often `n`
can be halved before reaching zero. -/
def bitsAux : Nat → Nat → Nat
  | 0, _ => 0
  | fuel + 1, n => if n = 0 then 0 else bitsAux fuel (n / 2) + 1

/-- Model of `BigInt::bits()`: bit length of the magnitude of a natural
number; `bitsNat 0 = 0`, otherwise `⌊log₂ n⌋ + 1` (see `bitsNat_eq`). -/
def bitsNat (n : Nat) : Nat := bitsAux n n

/-- `BigInt::bits()` on a possibly negative integer: bit length of the
magnitude. -/
def bits (x : Int) : Nat := bitsNat x.natAbs

/-- Bits of `a` that are not bits of `b` (`a AND NOT b` on naturals). -/
def natDiff (a b : Nat) : Nat := a ^^^ (a &&& b)

/-- Two's-complement bitwise NOT over unbounded width: `!x = -x - 1`
(model of `BigInt`'s `Not`). -/
def tcNot (x : Int) : Int := -x - 1

/-- Two's-complement bitwise AND over unbounded width (model of `BigInt`'s
`BitAnd`).  `Int.negSucc n` represents the complement of `n`. -/
def tcAnd : Int → Int → Int
  | .ofNat a, .ofNat b => .ofNat (a &&& b)
  | .ofNat a, .negSucc b => .ofNat (natDiff a b)
  | .negSucc a, .ofNat b => .ofNat (natDiff b a)
  | .negSucc a, .negSucc b => .negSucc (a ||| b)

/-- Two's-complement bitwise OR over unbounded width (model of `BigInt`'s
`BitOr`). -/
def tcOr : Int → Int → Int
  | .ofNat a, .ofNat b => .ofNat (a ||| b)
  | .ofNat a, .negSucc b => .negSucc (natDiff b a)
  | .negSucc a, .ofNat b => .negSucc (natDiff a b)
  | .negSucc a, .negSucc b => .negSucc (a &&& b)

/-- Two's-complement bitwise XOR over unbounded width (model of `BigInt`'s
`BitXor`). -/
def tcXor : Int → Int → Int
  | .ofNat a, .ofNat b => .ofNat (a ^^^ b)
  | .ofNat a, .negSucc b => .negSucc (a ^^^ b)
  | .negSucc a, .ofNat b => .negSucc (a ^^^ b)
  | .negSucc a, .negSucc b => .ofNat (a ^^^ b)

/-! ## Representation selection (`Repr`, `ReprSize`, `ReprSizeFixed`) -/

/-- `enum ReprSizeFixed { Fixed8, Fixed16, Fixed32, Fixed64, Fixed128 }`. -/
inductive ReprSizeFixed : Type
  | fixed8
  | fixed16
  | fixed32
  | fixed64
  | fixed128
deriving DecidableEq, Fintype

/-- The bit width denoted by a `ReprSizeFixed`. -/
def ReprSizeFixed.width : ReprSizeFixed → Nat
  | .fixed8 => 8
  | .fixed16 => 16
  | .fixed32 => 32
  | .fixed64 => 64
  | .fixed128 => 128

/-- `cmp::max` on `ReprSizeFixed`: the derived `Ord` is declaration order,
which coincides with width order. -/
def ReprSizeFixed.maxSize (a b : ReprSizeFixed) : ReprSizeFixed :=
  if b.width < a.width then a else b

/-- `ReprSizeFixed::from_bits`: the smallest fixed size holding `bits` bits,
`None` when more than 128 bits are needed. -/
def ReprSizeFixed.from_bits (bits : Nat) : Option ReprSizeFixed :=
  if bits ≤ 8 then some .fixed8
  else if bits ≤ 16 then some .fixed16
  else if bits ≤ 32 then some .fixed32
  else if bits ≤ 64 then some .fixed64
  else if bits ≤ 128 then some .fixed128
  else none

/-- `enum ReprSize { Fixed(ReprSizeFixed), Pointer }`. -/
inductive ReprSize : Type
  | fixed (f : ReprSizeFixed)
  | pointer
deriving DecidableEq

/-- `struct Repr { signed: bool, size: ReprSize, name: Ident }`; the `name`
field only caches the display name `i8`/`u8`/… and is omitted. -/
structure Repr : Type where
  signed : Bool
  size : ReprSize
deriving DecidableEq

/-- `Repr::smallest_repr(min, max)`. -/
def Repr.smallest_repr (min max : Int) : Option Repr :=
  if min < 0 then
    match ReprSizeFixed.from_bits (bits min + 1) with
    | none => none
    | some a =>
      match ReprSizeFixed.from_bits (bits max + 1) with
      | none => none
      | some b => some ⟨true, .fixed (a.maxSize b)⟩
  else
    match ReprSizeFixed.from_bits (bits max) with
    | none => none
    | some f => some ⟨false, .fixed f⟩

/-- `Repr::minimum`: the native minimum of the represented type, `None` for
pointer-sized representations. -/
def Repr.minimum (r : Repr) : Option Int :=
  match r.signed, r.size with
  | false, .fixed .fixed8 => some 0
  | false, .fixed .fixed16 => some 0
  | false, .fixed .fixed32 => some 0
  | false, .fixed .fixed64 => some 0
  | false, .fixed .fixed128 => some 0
  | true, .fixed .fixed8 => some (-128)
  | true, .fixed .fixed16 => some (-32768)
  | true, .fixed .fixed32 => some (-2147483648)
  | true, .fixed .fixed64 => some (-9223372036854775808)
  | true, .fixed .fixed128 => some (-170141183460469231731687303715884105728)
  | _, .pointer => none

/-- `Repr::maximum`: the native maximum of the represented type, `None` for
pointer-sized representations. -/
def Repr.maximum (r : Repr) : Option Int :=
  match r.signed, r.size with
  | false, .fixed .fixed8 => some 255
  | false, .fixed .fixed16 => some 65535
  | false, .fixed .fixed32 => some 4294967295
  | false, .fixed .fixed64 => some 18446744073709551615
  | false, .fixed .fixed128 => some 340282366920938463463374607431768211455
  | true, .fixed .fixed8 => some 127
  | true, .fixed .fixed16 => some 32767
  | true, .fixed .fixed32 => some 2147483647
  | true, .fixed .fixed64 => some 9223372036854775807
  | true, .fixed .fixed128 => some 170141183460469231731687303715884105727
  | _, .pointer => none

/-! ## The constant-expression evaluator (`eval_expr`) -/

/-- Unary operators as classified by `eval_expr`: `!`, `-`, or any other
`syn::UnOp`. -/
inductive UnOpM : Type
  | bnot
  | neg
  | otherOp
deriving DecidableEq

/-- Binary operators as classified by `eval_expr`: the eight supported ones,
or any other `syn::BinOp`. -/
inductive BinOpM : Type
  | add
  | sub
  | mul
  | div
  | rem
  | bxor
  | band
  | bor
  | otherOp
deriving DecidableEq

/-- The shapes of `syn::Expr` distinguished by `eval_expr`: integer literal,
non-integer literal, unary, binary, group, parenthesis, and every other
expression shape. -/
inductive RExpr : Type
  | lit (n : Int)
  | litOther
  | unary (op : UnOpM) (e : RExpr)
  | binary (l : RExpr) (op : BinOpM) (r : RExpr)
  | group (e : RExpr)
  | paren (e : RExpr)
  | unsupported
deriving DecidableEq

/-- Outcomes through which `eval_expr` can fail.  The first five model the
`syn::Error` values it returns; `panicRemZero` models the Rust panic raised
by `BigInt`'s `%` when the divisor is zero (the code does not use a checked
remainder, so this is a panic, not a returned error). -/
inductive EvalErr : Type
  | litNotInteger
  | badUnaryOp
  | divisionByZero
  | badBinaryOp
  | unsupportedExpr
  | panicRemZero
deriving DecidableEq

/-- `eval_expr`: evaluates a restricted constant expression to a `BigInt`.
`int.base10_parse::<BigInt>()` on an integer literal always succeeds, so the
literal case is a plain value. -/
def eval_expr : RExpr → Except EvalErr Int
  | .lit n => .ok n
  | .litOther => .error .litNotInteger
  | .unary op e =>
    match eval_expr e with
    | .error err => .error err
    | .ok v =>
      match op with
      | .bnot => .ok (tcNot v)
      | .neg => .ok (-v)
      | .otherOp => .error .badUnaryOp
  | .binary l op r =>
    match eval_expr l with
    | .error err => .error err
    | .ok lv =>
      match eval_expr r with
      | .error err => .error err
      | .ok rv =>
        match op with
        | .add => .ok (lv + rv)
        | .sub => .ok (lv - rv)
        | .mul => .ok (lv * rv)
        | .div => if rv = 0 then .error .divisionByZero else .ok (lv.tdiv rv)
        | .rem => if rv = 0 then .error .panicRemZero else .ok (lv.tmod rv)
        | .bxor => .ok (tcXor lv rv)
        | .band => .ok (tcAnd lv rv)
        | .bor => .ok (tcOr lv rv)
        | .otherOp => .error .badBinaryOp
  | .group e => eval_expr e
  | .paren e => eval_expr e
  | .unsupported => .error .unsupportedExpr

/-! ## Range resolution (`<BoundedInteger as Parse>::parse`, lines 194-245) -/

/-- `syn::RangeLimits`: `..` versus `..=`. -/
inductive RangeLimitsM : Type
  | halfOpen
  | closed
deriving DecidableEq

/-- The errors `parse` can produce after both endpoints were evaluated. -/
inductive ParseErr : Type
  | evalErr (e : EvalErr)
  | emptyOrInverted
  | signMismatch
  | reprTooNarrowLow
  | reprTooNarrowHigh
  | rangeTooWide
deriving DecidableEq

/-- Normalization of the upper bound: for an exclusive range `..` the
evaluated high endpoint is decremented. -/
def normalizeHigh : RangeLimitsM → Int → Int
  | .halfOpen, t => t - 1
  | .closed, t => t

/-- `explicit_repr.minimum().map_or(false, |min| from < min)`. -/
def belowMin (r : Repr) (lo : Int) : Bool :=
  match r.minimum with
  | none => false
  | some min => decide (lo < min)

/-- `explicit_repr.maximum().map_or(false, |max| to > max)`. -/
def aboveMax (r : Repr) (hi : Int) : Bool :=
  match r.maximum with
  | none => false
  | some max => decide (max < hi)

/-- The checks `parse` performs on the resolved endpoints (after evaluation
and normalization): the range invariant `from >= to → error`, then explicit
representation validation or automatic selection.  Returns the chosen
representation together with the resolved inclusive range. -/
def resolveCore (reprAttr : Option Repr) (lo hi : Int) :
    Except ParseErr (Repr × Int × Int) :=
  if lo ≥ hi then .error .emptyOrInverted
  else
    match reprAttr with
    | some r =>
      if r.signed = false ∧ lo < 0 then .error .signMismatch
      else if belowMin r lo then .error .reprTooNarrowLow
      else if aboveMax r hi then .error .reprTooNarrowHigh
      else .ok (r, lo, hi)
    | none =>
      match Repr.smallest_repr lo hi with
      | some r => .ok (r, lo, hi)
      | none => .error .rangeTooWide

/-- The range-resolution slice of `<BoundedInteger as Parse>::parse`: both
endpoint expressions are evaluated (low first), the upper bound is
normalized, then `resolveCore` applies the checks of lines 205-245. -/
def parseBoundedInteger (reprAttr : Option Repr) (fromE toE : RExpr)
    (lim : RangeLimitsM) : Except ParseErr (Repr × Int × Int) :=
  match eval_expr fromE with
  | .error e => .error (.evalErr e)
  | .ok lo =>
    match eval_expr toE with
    | .error e => .error (.evalErr e)
    | .ok t => resolveCore reprAttr lo (normalizeHigh lim t)

/-! ## Spec-side definitions (written from the specification's wording, for
refinement comparisons) -/

/-- The supported fixed bit widths, ascending (spec §4.2). -/
def supportedWidths : List Nat := [8, 16, 32, 64, 128]

/-- Spec §4.2: the required bit width for a range: for `low < 0`, the larger
of the two magnitudes' bit lengths plus one sign bit of headroom; for
`low ≥ 0`, the bit length of `high`. -/
def requiredWidth (low high : Int) : Nat :=
  if low < 0 then Nat.max (bits low + 1) (bits high + 1) else bits high

/-- Spec-side quotient truncated toward zero:
`sign a * sign b * (|a| / |b|)` with natural-number division. -/
def truncDiv (a b : Int) : Int :=
  a.sign * b.sign * ((a.natAbs / b.natAbs : Nat) : Int)

/-- Spec-side denotation (spec §4.1): the exact arbitrary-precision
mathematical value of an expression in the supported fragment (junk value
`0` outside it).  `not x = -x - 1`; division and remainder are truncated
toward zero; xor/and/or act on the two's-complement unbounded-width
representation. -/
def mathValue : RExpr → Int
  | .lit n => n
  | .unary .bnot e => -(mathValue e) - 1
  | .unary .neg e => -(mathValue e)
  | .binary l .add r => mathValue l + mathValue r
  | .binary l .sub r => mathValue l - mathValue r
  | .binary l .mul r => mathValue l * mathValue r
  | .binary l .div r => (mathValue l).tdiv (mathValue r)
  | .binary l .rem r => (mathValue l).tmod (mathValue r)
  | .binary l .bxor r => tcXor (mathValue l) (mathValue r)
  | .binary l .band r => tcAnd (mathValue l) (mathValue r)
  | .binary l .bor r => tcOr (mathValue l) (mathValue r)
  | _ => 0

/-- The expression fragment of claim C7: built only from integer literals,
unary negate, unary not, and the eight supported binary operators, with no
division or remainder by zero. -/
def Wf : RExpr → Bool
  | .lit _ => true
  | .unary .bnot e => Wf e
  | .unary .neg e => Wf e
  | .binary l op r =>
    Wf l && Wf r &&
      match op with
      | .div => decide (mathValue r ≠ 0)
      | .rem => decide (mathValue r ≠ 0)
      | .otherOp => false
      | _ => true
  | _ => false

/-! ## Helper lemmas -/

theorem bitsAux_eq (fuel : Nat) : ∀ n : Nat, n ≤ fuel →
    bitsAux fuel n = if n = 0 then 0 else Nat.log2 n + 1 := by
  induction fuel with
  | zero =>
    intro n hn
    have : n = 0 := Nat.le_zero.mp hn
    subst this
    rfl
  | succ fuel ih =>
    intro n hn
    by_cases hz : n = 0
    · subst hz; rfl
    · have hstep : bitsAux (fuel + 1) n = bitsAux fuel (n / 2) + 1 := by
        simp [bitsAux, hz]
      rw [hstep, ih (n / 2) (by omega), if_neg hz]
      by_cases h2 : n / 2 = 0
      · have hone : n = 1 := by omega
        subst hone
        rw [if_pos h2]
        rw [Nat.log2]
        norm_num
      · rw [if_neg h2]
        conv_rhs => rw [Nat.log2]
        rw [if_pos (by omega : 2 ≤ n)]

theorem bitsNat_eq (n : Nat) : bitsNat n = if n = 0 then 0 else Nat.log2 n + 1 :=
  bitsAux_eq n n (Nat.le_refl n)

theorem bitsNat_le_iff (n k : Nat) : bitsNat n ≤ k ↔ n < 2 ^ k := by
  rw [bitsNat_eq]
  by_cases hz : n = 0
  · subst hz
    simp [Nat.pos_pow_of_pos]
  · rw [if_neg hz, Nat.succ_le]
    exact Nat.log2_lt hz

theorem lt_two_pow_bitsNat (n : Nat) : n < 2 ^ bitsNat n :=
  (bitsNat_le_iff n (bitsNat n)).mp (Nat.le_refl _)

theorem bitsNat_mono {a b : Nat} (h : a ≤ b) : bitsNat a ≤ bitsNat b :=
  (bitsNat_le_iff a (bitsNat b)).mpr (Nat.lt_of_le_of_lt h (lt_two_pow_bitsNat b))

theorem width_mem_supported (f : ReprSizeFixed) : f.width ∈ supportedWidths := by
  cases f <;> simp [supportedWidths, ReprSizeFixed.width]

theorem maxSize_width (a b : ReprSizeFixed) :
    (a.maxSize b).width = Nat.max a.width b.width := by
  revert a b
  decide

theorem from_bits_some {n : Nat} {f : ReprSizeFixed}
    (h : ReprSizeFixed.from_bits n = some f) :
    n ≤ f.width ∧
      ∀ w ∈ supportedWidths, n ≤ w → f.width ≤ w := by
  unfold ReprSizeFixed.from_bits at h
  split_ifs at h <;> simp only [Option.some.injEq] at h <;> subst h <;>
    refine ⟨by simp [ReprSizeFixed.width]; omega, ?_⟩ <;>
    · intro w hw hnw
      simp only [supportedWidths, List.mem_cons, List.not_mem_nil, or_false] at hw
      rcases hw with rfl | rfl | rfl | rfl | rfl <;> first | decide | omega

theorem from_bits_none_iff (n : Nat) :
    ReprSizeFixed.from_bits n = none ↔ 128 < n := by
  unfold ReprSizeFixed.from_bits
  split_ifs <;> simp <;> omega

theorem minimum_signed (f : ReprSizeFixed) :
    (Repr.mk true (.fixed f)).minimum = some (-(2 ^ (f.width - 1))) := by
  cases f <;> decide

theorem maximum_signed (f : ReprSizeFixed) :
    (Repr.mk true (.fixed f)).maximum = some (2 ^ (f.width - 1) - 1) := by
  cases f <;> decide

theorem minimum_unsigned (f : ReprSizeFixed) :
    (Repr.mk false (.fixed f)).minimum = some 0 := by
  cases f <;> rfl

theorem maximum_unsigned (f : ReprSizeFixed) :
    (Repr.mk false (.fixed f)).maximum = some (2 ^ f.width - 1) := by
  cases f <;> decide

theorem minimum_pointer (s : Bool) : (Repr.mk s .pointer).minimum = none := by
  cases s <;> rfl

theorem maximum_pointer (s : Bool) : (Repr.mk s .pointer).maximum = none := by
  cases s <;> rfl

theorem smallest_repr_some {low high : Int} {r : Repr}
    (h : Repr.smallest_repr low high = some r) :
    r.signed = decide (low < 0) ∧
    ∃ f, r.size = .fixed f ∧
      requiredWidth low high ≤ f.width ∧
      ∀ w ∈ supportedWidths, requiredWidth low high ≤ w → f.width ≤ w := by
  by_cases hneg : low < 0
  · rw [Repr.smallest_repr, if_pos hneg] at h
    rcases ha : ReprSizeFixed.from_bits (bits low + 1) with _ | a <;> rw [ha] at h
    · exact absurd h (by simp)
    rcases hb : ReprSizeFixed.from_bits (bits high + 1) with _ | b <;> rw [hb] at h
    · exact absurd h (by simp)
    simp only [Option.some.injEq] at h
    subst h
    obtain ⟨ha1, ha2⟩ := from_bits_some ha
    obtain ⟨hb1, hb2⟩ := from_bits_some hb
    refine ⟨by simp [hneg], a.maxSize b, rfl, ?_, ?_⟩
    · rw [maxSize_width, requiredWidth, if_pos hneg]
      exact max_le_max ha1 hb1
    · intro w hw hrw
      rw [requiredWidth, if_pos hneg] at hrw
      rw [maxSize_width]
      have h1 := ha2 w hw (le_trans (Nat.le_max_left _ _) hrw)
      have h2 := hb2 w hw (le_trans (Nat.le_max_right _ _) hrw)
      exact max_le h1 h2
  · rw [Repr.smallest_repr, if_neg hneg] at h
    rcases hb : ReprSizeFixed.from_bits (bits high) with _ | b <;> rw [hb] at h
    · exact absurd h (by simp)
    simp only [Option.some.injEq] at h
    subst h
    obtain ⟨hb1, hb2⟩ := from_bits_some hb
    refine ⟨by simp [hneg], b, rfl, ?_, ?_⟩
    · rwa [requiredWidth, if_neg hneg]
    · intro w hw hrw
      rw [requiredWidth, if_neg hneg] at hrw
      exact hb2 w hw hrw

theorem smallest_repr_none_iff (low high : Int) :
    Repr.smallest_repr low high = none ↔ 128 < requiredWidth low high := by
  by_cases hneg : low < 0
  · rw [Repr.smallest_repr, if_pos hneg, requiredWidth, if_pos hneg]
    rcases ha : ReprSizeFixed.from_bits (bits low + 1) with _ | a
    · have := (from_bits_none_iff (bits low + 1)).mp ha
      simp only [true_iff]
      exact lt_of_lt_of_le this (Nat.le_max_left _ _)
    rcases hb : ReprSizeFixed.from_bits (bits high + 1) with _ | b
    · have := (from_bits_none_iff (bits high + 1)).mp hb
      simp only [true_iff]
      exact lt_of_lt_of_le this (Nat.le_max_right _ _)
    have hna : ¬ 128 < bits low + 1 := fun hc =>
      by rw [(from_bits_none_iff _).mpr hc] at ha; exact Option.noConfusion ha
    have hnb : ¬ 128 < bits high + 1 := fun hc =>
      by rw [(from_bits_none_iff _).mpr hc] at hb; exact Option.noConfusion hb
    simp only [reduceCtorEq, false_iff, not_lt]
    exact max_le (by omega) (by omega)
  · rw [Repr.smallest_repr, if_neg hneg, requiredWidth, if_neg hneg]
    rcases hb : ReprSizeFixed.from_bits (bits high) with _ | b
    · have := (from_bits_none_iff (bits high)).mp hb
      simp only [true_iff]
      omega
    have hnb : ¬ 128 < bits high := fun hc =>
      by rw [(from_bits_none_iff _).mpr hc] at hb; exact Option.noConfusion hb
    simp only [Option.map_some, reduceCtorEq, false_iff]
    omega

theorem tdiv_eq_truncDiv (a b : Int) : a.tdiv b = truncDiv a b := by
  rcases a with m | m <;> rcases b with n | n
  · rcases m with _ | m <;> rcases n with _ | n <;>
      simp only [truncDiv, Int.tdiv, Int.sign, Int.natAbs] <;> simp
  · rcases m with _ | m <;>
      simp only [truncDiv, Int.tdiv, Int.sign, Int.natAbs] <;> simp
  · rcases n with _ | n <;>
      simp only [truncDiv, Int.tdiv, Int.sign, Int.natAbs] <;> simp
  · simp only [truncDiv, Int.tdiv, Int.sign, Int.natAbs]
    simp

theorem tmod_eq_sub (a b : Int) : a.tmod b = a - b * a.tdiv b := by
  have h := Int.tdiv_add_tmod a b
  linarith

theorem tmod_nonpos (a b : Int) (h : a ≤ 0) : a.tmod b ≤ 0 := by
  rcases a with m | m
  · have hm : m = 0 := by
      by_contra hne
      have h1 : (0 : Int) < Int.ofNat m := Int.ofNat_pos.mpr (Nat.pos_of_ne_zero hne)
      exact absurd (lt_of_lt_of_le h1 h) (lt_irrefl 0)
    subst hm
    rcases b with n | n <;> simp only [Int.tmod, Nat.zero_mod] <;> simp
  · rcases b with n | n <;> simp only [Int.tmod] <;>
      exact neg_nonpos.mpr (Int.ofNat_nonneg _)

/-- On the well-formed fragment of claim C7, `eval_expr` returns the exact
mathematical value. -/
theorem eval_wf : ∀ e : RExpr, Wf e = true → eval_expr e = .ok (mathValue e) := by
  intro e
  induction e with
  | lit n => intro _; rfl
  | litOther => intro h; exact absurd h (by simp [Wf])
  | unary op e ih =>
    intro h
    cases op with
    | bnot => rw [eval_expr, ih (by simpa [Wf] using h)]; rfl
    | neg => rw [eval_expr, ih (by simpa [Wf] using h)]; rfl
    | otherOp => exact absurd h (by simp [Wf])
  | binary l op r ihl ihr =>
    intro h
    simp only [Wf, Bool.and_eq_true] at h
    obtain ⟨⟨hl, hr⟩, hop⟩ := h
    rw [eval_expr, ihl hl, ihr hr]
    cases op with
    | add => rfl
    | sub => rfl
    | mul => rfl
    | div =>
      have hnz : mathValue r ≠ 0 := by simpa using hop
      simp only [if_neg hnz]
      rfl
    | rem =>
      have hnz : mathValue r ≠ 0 := by simpa using hop
      simp only [if_neg hnz]
      rfl
    | bxor => rfl
    | band => rfl
    | bor => rfl
    | otherOp => exact absurd hop (by simp)
  | group e ih => intro h; exact absurd h (by simp [Wf])
  | paren e ih => intro h; exact absurd h (by simp [Wf])
  | unsupported => intro h; exact absurd h (by simp [Wf])

theorem bits_le_iff (x : Int) (k : Nat) :
    bits x ≤ k ↔ -((2 : Int) ^ k) < x ∧ x < (2 : Int) ^ k := by
  rw [bits, bitsNat_le_iff, ← abs_lt]
  constructor
  · intro h
    rw [Int.abs_eq_natAbs]
    exact_mod_cast h
  · intro h
    rw [Int.abs_eq_natAbs] at h
    exact_mod_cast h

theorem natAbs_le_natAbs_of_nonpos {a b : Int} (hb : b ≤ 0) (hab : a ≤ b) :
    b.natAbs ≤ a.natAbs := by
  have h : |b| ≤ |a| := abs_le_abs_of_nonpos hb hab
  rw [Int.abs_eq_natAbs, Int.abs_eq_natAbs] at h
  exact_mod_cast h

/-! ## Claim theorems -/

/-- Claim C2 (code bug): the claim states that every division or remainder
with a zero right operand makes `eval_expr` fail with the structured
DivisionByZero error, never panicking.  The code only guards division
(`checked_div`); remainder is computed with `BigInt`'s plain `%`, which
panics on a zero divisor.  At the failing input `1 % 0` the evaluator
panics (modelled by `panicRemZero`) instead of returning the error, while
`1 / 0` and a nested `3 + 1 / 0` do return DivisionByZero. -/
theorem c2_rem_by_zero_panics :
    eval_expr (.binary (.lit 1) .rem (.lit 0)) = .error .panicRemZero ∧
    eval_expr (.binary (.lit 1) .div (.lit 0)) = .error .divisionByZero ∧
    eval_expr (.binary (.lit 3) .add (.binary (.lit 1) .div (.lit 0)))
      = .error .divisionByZero := by
  refine ⟨?_, ?_, ?_⟩ <;> decide

/-- Claim C9 (confirmed): `eval_expr` on a parenthesized or invisibly
grouped expression returns exactly the value of the inner expression. -/
theorem c9_paren_group_transparent (e : RExpr) :
    eval_expr (.paren e) = eval_expr e ∧ eval_expr (.group e) = eval_expr e := by
  constructor <;> rw [eval_expr]

/-- Claim C10 (confirmed): for `b ≠ 0`, division evaluates to the quotient
truncated toward zero (`truncDiv`, i.e. `sign a * sign b * (|a| / |b|)`) and
remainder to `a - b * truncDiv a b`, which is nonnegative when `a ≥ 0` and
nonpositive when `a ≤ 0` (the remainder carries the dividend's sign). -/
theorem c10_truncated_div_rem (a b : Int) (hb : b ≠ 0) :
    eval_expr (.binary (.lit a) .div (.lit b)) = .ok (truncDiv a b) ∧
    eval_expr (.binary (.lit a) .rem (.lit b)) = .ok (a - b * truncDiv a b) ∧
    (0 ≤ a → 0 ≤ a - b * truncDiv a b) ∧
    (a ≤ 0 → a - b * truncDiv a b ≤ 0) := by
  have hdiv : eval_expr (.binary (.lit a) .div (.lit b)) = .ok (a.tdiv b) := by
    simp [eval_expr, hb]
  have hrem : eval_expr (.binary (.lit a) .rem (.lit b)) = .ok (a.tmod b) := by
    simp [eval_expr, hb]
  refine ⟨by rw [hdiv, tdiv_eq_truncDiv], ?_, ?_, ?_⟩
  · rw [hrem, tmod_eq_sub, tdiv_eq_truncDiv]
  · intro ha
    have h := Int.tmod_nonneg b ha
    rwa [tmod_eq_sub, tdiv_eq_truncDiv] at h
  · intro ha
    have h := tmod_nonpos a b ha
    rwa [tmod_eq_sub, tdiv_eq_truncDiv] at h

/-- Witness for C10 at `a = -7`, `b = 2`: `-7 / 2 = -3` and `-7 % 2 = -1`. -/
theorem c10_witness :
    eval_expr (.binary (.lit (-7)) .div (.lit 2)) = .ok (-3) ∧
    eval_expr (.binary (.lit (-7)) .rem (.lit 2)) = .ok (-1) := by
  have h := c10_truncated_div_rem (-7) 2 (by decide)
  exact ⟨by rw [h.1]; decide, by rw [h.2.1]; decide⟩

/-- Claim C7 (confirmed): on every tree built from integer literals, unary
negate/not and the eight supported binary operators with no division or
remainder by zero (`Wf`), `eval_expr` succeeds with the exact
arbitrary-precision value `mathValue`; in particular `!x = -x - 1`. -/
theorem c7_exact_evaluation (e : RExpr) (x : Int) (h : Wf e = true) :
    eval_expr e = .ok (mathValue e) ∧
    eval_expr (.unary .bnot (.lit x)) = .ok (-x - 1) :=
  ⟨eval_wf e h, by simp [eval_expr, tcNot]⟩

/-- Witness for C7 at `9 & (12 / 5)` and `x = 5`. -/
theorem c7_witness :
    eval_expr (.binary (.lit 9) .band (.binary (.lit 12) .div (.lit 5))) = .ok 0 ∧
    eval_expr (.unary .bnot (.lit 5)) = .ok (-6) := by
  have h := c7_exact_evaluation
    (.binary (.lit 9) .band (.binary (.lit 12) .div (.lit 5))) 5 (by decide)
  exact ⟨by rw [h.1]; decide, by rw [h.2]; decide⟩

/-- Counterexample to claim C3: the claim states that a singleton normalized
range (`low = high`) is not rejected, but the code's check is `from >= to`,
so the declaration `5..=5` fails with the empty-or-inverted-range error. -/
theorem c3_counterexample :
    parseBoundedInteger none (.lit 5) (.lit 5) .closed = .error .emptyOrInverted := by
  decide

/-- Claim C3 (corrected): parsing fails with the empty-or-inverted-range
error exactly when, after normalizing an exclusive upper bound, the
evaluated low endpoint is greater than **or equal to** the evaluated high
endpoint; singleton ranges are rejected too. -/
theorem c3_empty_or_inverted_iff (reprAttr : Option Repr) (fromE toE : RExpr)
    (lim : RangeLimitsM) (f t : Int)
    (hf : eval_expr fromE = .ok f) (ht : eval_expr toE = .ok t) :
    (parseBoundedInteger reprAttr fromE toE lim = .error .emptyOrInverted ↔
      normalizeHigh lim t ≤ f) := by
  simp only [parseBoundedInteger, hf, ht]
  by_cases hge : normalizeHigh lim t ≤ f
  · rw [resolveCore.eq_def, if_pos hge]
    simp [hge]
  · rw [resolveCore.eq_def, if_neg hge]
    simp only [hge, iff_false]
    cases reprAttr with
    | some r =>
      dsimp only
      split_ifs <;> simp
    | none =>
      dsimp only
      cases Repr.smallest_repr f (normalizeHigh lim t) <;> simp

/-- Witness for C3 at the inverted range `2..=1`. -/
theorem c3_witness :
    parseBoundedInteger none (.lit 2) (.lit 1) .closed = .error .emptyOrInverted :=
  (c3_empty_or_inverted_iff none (.lit 2) (.lit 1) .closed 2 1 rfl rfl).mpr (by decide)

/-- Claim C6 (confirmed): a declaration whose evaluated low endpoint is
negative together with an explicitly supplied unsigned representation fails
with the sign-mismatch error; the check looks only at the low endpoint's
sign and fires before any width comparison (it applies to every unsigned
representation, pointer-sized included, and even when the low endpoint is
also below the representation's minimum). -/
theorem c6_sign_mismatch (r : Repr) (fromE toE : RExpr) (lim : RangeLimitsM)
    (f t : Int) (hf : eval_expr fromE = .ok f) (ht : eval_expr toE = .ok t)
    (hsign : r.signed = false) (hneg : f < 0) (hlt : f < normalizeHigh lim t) :
    parseBoundedInteger (some r) fromE toE lim = .error .signMismatch := by
  simp only [parseBoundedInteger, hf, ht]
  rw [resolveCore.eq_def, if_neg (not_le.mpr hlt)]
  dsimp only
  rw [if_pos ⟨hsign, hneg⟩]

/-- Witness for C6: explicit `u8` for the range `-5..=3`. -/
theorem c6_witness :
    parseBoundedInteger (some ⟨false, .fixed .fixed8⟩) (.lit (-5)) (.lit 3) .closed
      = .error .signMismatch :=
  c6_sign_mismatch ⟨false, .fixed .fixed8⟩ (.lit (-5)) (.lit 3) .closed (-5) 3
    rfl rfl rfl (by decide) (by decide)

/-- Claim C8 (confirmed): an exclusive upper bound is normalized by
subtracting one from the evaluated high expression before the
low-versus-high invariant check and before representation validation (both
live in `resolveCore`, which receives `t - 1`); in particular explicit `u8`
with range `2..5` resolves to the inclusive range `(2, 4)` and validates. -/
theorem c8_exclusive_normalization (reprAttr : Option Repr) (fromE toE : RExpr)
    (f t : Int) (hf : eval_expr fromE = .ok f) (ht : eval_expr toE = .ok t) :
    parseBoundedInteger reprAttr fromE toE .halfOpen = resolveCore reprAttr f (t - 1) ∧
    parseBoundedInteger (some ⟨false, .fixed .fixed8⟩) (.lit 2) (.lit 5) .halfOpen
      = .ok (⟨false, .fixed .fixed8⟩, 2, 4) := by
  constructor
  · simp only [parseBoundedInteger, hf, ht, normalizeHigh]
  · decide

/-- Witness for C8 at the declaration `0..10` with automatic selection. -/
theorem c8_witness :
    parseBoundedInteger none (.lit 0) (.lit 10) .halfOpen = resolveCore none 0 (10 - 1) ∧
    parseBoundedInteger (some ⟨false, .fixed .fixed8⟩) (.lit 2) (.lit 5) .halfOpen
      = .ok (⟨false, .fixed .fixed8⟩, 2, 4) :=
  c8_exclusive_normalization none (.lit 0) (.lit 10) 0 10 rfl rfl

/-- Counterexample to claim C5: (a) for the explicit unsigned representation
`u8` and range `-5..=3` the low endpoint `-5` is below `u8`'s native minimum
`0`, yet parsing fails with the sign-mismatch error, not a too-narrow
error; (b) for the explicit pointer-sized representation `usize` and range
`0..=2^200` (a high endpoint above any platform's native `usize` maximum)
parsing succeeds: pointer-sized representations undergo no min/max
validation at all. -/
theorem c5_counterexample :
    parseBoundedInteger (some ⟨false, .fixed .fixed8⟩) (.lit (-5)) (.lit 3) .closed
      = .error .signMismatch ∧
    parseBoundedInteger (some ⟨false, .pointer⟩) (.lit 0) (.lit (2 ^ 200)) .closed
      = .ok (⟨false, .pointer⟩, 0, 2 ^ 200) := by
  constructor <;> decide

/-- Claim C5 (corrected): for an explicitly supplied representation — after
the sign-mismatch check has passed (signed representation, or nonnegative
low endpoint) — parsing fails with the too-narrow error naming the low
bound whenever the evaluated low endpoint is below the representation's
native minimum, and with the too-narrow error naming the high bound
whenever the low endpoint is within range but the normalized high endpoint
is above the native maximum; pointer-sized representations have no native
min/max in the code and skip this validation entirely, parsing
successfully. -/
theorem c5_explicit_repr_validation (r : Repr) (fromE toE : RExpr)
    (lim : RangeLimitsM) (f t : Int)
    (hf : eval_expr fromE = .ok f) (ht : eval_expr toE = .ok t)
    (hlt : f < normalizeHigh lim t) (hsign : r.signed = true ∨ 0 ≤ f) :
    (∀ m, r.minimum = some m → f < m →
      parseBoundedInteger (some r) fromE toE lim = .error .reprTooNarrowLow) ∧
    (∀ m M, r.minimum = some m → r.maximum = some M →
      m ≤ f → M < normalizeHigh lim t →
      parseBoundedInteger (some r) fromE toE lim = .error .reprTooNarrowHigh) ∧
    (r.size = .pointer →
      parseBoundedInteger (some r) fromE toE lim = .ok (r, f, normalizeHigh lim t)) := by
  have hns : ¬ (r.signed = false ∧ f < 0) := by
    rcases hsign with h | h
    · rintro ⟨h1, _⟩
      rw [h] at h1
      exact Bool.noConfusion h1
    · rintro ⟨_, h2⟩
      omega
  have hstart : parseBoundedInteger (some r) fromE toE lim =
      (if belowMin r f = true then Except.error ParseErr.reprTooNarrowLow
        else if aboveMax r (normalizeHigh lim t) = true then
          Except.error ParseErr.reprTooNarrowHigh
        else Except.ok (r, f, normalizeHigh lim t)) := by
    simp only [parseBoundedInteger, hf, ht]
    rw [resolveCore.eq_def, if_neg (not_le.mpr hlt)]
    dsimp only
    rw [if_neg hns]
  refine ⟨?_, ?_, ?_⟩
  · intro m hm hfm
    rw [hstart, if_pos (by rw [belowMin, hm]; simpa using hfm)]
  · intro m M hm hM hmf hMt
    rw [hstart,
      if_neg (by rw [belowMin, hm]; simpa using not_lt.mpr hmf),
      if_pos (by rw [aboveMax, hM]; simpa using hMt)]
  · intro hp
    obtain ⟨s, sz⟩ := r
    cases hp
    rw [hstart,
      if_neg (by rw [belowMin, minimum_pointer]; simp),
      if_neg (by rw [aboveMax, maximum_pointer]; simp)]

/-- Witness for C5: explicit `i8` for `-300..=3` fails naming the low
bound, explicit `i8` for `-3..=300` fails naming the high bound, and
explicit `isize` for `-300..=300` parses successfully. -/
theorem c5_witness :
    parseBoundedInteger (some ⟨true, .fixed .fixed8⟩) (.lit (-300)) (.lit 3) .closed
      = .error .reprTooNarrowLow ∧
    parseBoundedInteger (some ⟨true, .fixed .fixed8⟩) (.lit (-3)) (.lit 300) .closed
      = .error .reprTooNarrowHigh ∧
    parseBoundedInteger (some ⟨true, .pointer⟩) (.lit (-300)) (.lit 300) .closed
      = .ok (⟨true, .pointer⟩, -300, 300) := by
  refine ⟨?_, ?_, ?_⟩
  · exact (c5_explicit_repr_validation ⟨true, .fixed .fixed8⟩ (.lit (-300)) (.lit 3)
      .closed (-300) 3 rfl rfl (by decide) (Or.inl rfl)).1 (-128) rfl (by decide)
  · exact (c5_explicit_repr_validation ⟨true, .fixed .fixed8⟩ (.lit (-3)) (.lit 300)
      .closed (-3) 300 rfl rfl (by decide) (Or.inl rfl)).2.1 (-128) 127 rfl rfl
      (by decide) (by decide)
  · exact (c5_explicit_repr_validation ⟨true, .pointer⟩ (.lit (-300)) (.lit 300)
      .closed (-300) 300 rfl rfl (by decide) (Or.inl rfl)).2.2 rfl

/-- Claim C4 (confirmed): automatic selection follows the specified
algorithm.  The chosen representation is signed exactly when `low < 0`; its
width is the smallest supported width (among exactly 8, 16, 32, 64, 128)
at least `requiredWidth low high`, which is `max(bits |low| + 1,
bits |high| + 1)` when `low < 0` and `bits high` otherwise (bit length of 0
being 0); selection returns nothing exactly when no supported width
suffices, in which case parsing reports the range-too-wide error. -/
theorem c4_selection_algorithm (low high : Int) :
    (∀ r, Repr.smallest_repr low high = some r →
      r.signed = decide (low < 0) ∧
      ∃ f, r.size = .fixed f ∧ f.width ∈ supportedWidths ∧
        requiredWidth low high ≤ f.width ∧
        ∀ w ∈ supportedWidths, requiredWidth low high ≤ w → f.width ≤ w) ∧
    (Repr.smallest_repr low high = none ↔ 128 < requiredWidth low high) ∧
    (low < high → Repr.smallest_repr low high = none →
      resolveCore none low high = .error .rangeTooWide) := by
  refine ⟨?_, smallest_repr_none_iff low high, ?_⟩
  · intro r hr
    obtain ⟨hs, f, hsz, hreq, hmin⟩ := smallest_repr_some hr
    exact ⟨hs, f, hsz, width_mem_supported f, hreq, hmin⟩
  · intro hlh hnone
    rw [resolveCore.eq_def, if_neg (not_le.mpr hlh)]
    dsimp only
    rw [hnone]

/-- Witness for C4 at the range `-3..=1`, selecting `i8`. -/
theorem c4_witness :
    (Repr.mk true (.fixed .fixed8)).signed = decide ((-3 : Int) < 0) ∧
    ∃ f, (Repr.mk true (.fixed .fixed8)).size = .fixed f ∧
      f.width ∈ supportedWidths ∧
      requiredWidth (-3) 1 ≤ f.width ∧
      ∀ w ∈ supportedWidths, requiredWidth (-3) 1 ≤ w → f.width ≤ w :=
  (c4_selection_algorithm (-3) 1).1 ⟨true, .fixed .fixed8⟩ (by decide)

/-- Counterexample to claim C1, refuting it in two ways.  First, for
`(low, high) = (-128, 0)` automatic selection returns the signed 16-bit
representation, yet the strictly narrower signed 8-bit representation
already satisfies both bound comparisons (`i8` min `-128 ≤ -128` and max
`127 ≥ 0`): the selection is not the narrowest.  Second, for
`(low, high) = (-2^127, 0)`, which fits in `i128` (min `-2^127 ≤ low`, max
`2^127 - 1 ≥ 0`), selection returns nothing at all (`bits(2^127) + 1 =
129` exceeds every supported width), so no sound representation is
returned for that fitting pair. -/
theorem c1_counterexample :
    Repr.smallest_repr (-128) 0 = some ⟨true, .fixed .fixed16⟩ ∧
    (Repr.mk true (.fixed .fixed8)).minimum = some (-128) ∧
    (Repr.mk true (.fixed .fixed8)).maximum = some 127 ∧
    ((-128 : Int) ≤ -128 ∧ (0 : Int) ≤ 127) ∧
    ReprSizeFixed.fixed8.width < ReprSizeFixed.fixed16.width ∧
    Repr.smallest_repr (-(2 ^ 127)) 0 = none ∧
    (Repr.mk true (.fixed .fixed128)).minimum = some (-(2 ^ 127)) ∧
    (Repr.mk true (.fixed .fixed128)).maximum = some (2 ^ 127 - 1) ∧
    ((-(2 ^ 127) : Int) ≤ -(2 ^ 127) ∧ (0 : Int) ≤ 2 ^ 127 - 1) := by
  refine ⟨?_, ?_, ?_, ?_, ?_, ?_, ?_, ?_, ?_⟩ <;> decide

/-- If a fixed-width representation's native bounds contain `[low, high]`
(with `low ≤ high` and `low` never exactly `-2^(w-1)`), then its width is
at least the bit requirement the code computes. -/
theorem requiredWidth_le_of_sound {low high : Int} (hlh : low ≤ high)
    (hpow : ∀ g : ReprSizeFixed, low ≠ -((2 : Int) ^ (g.width - 1)))
    {s' : Bool} {f' : ReprSizeFixed} {m' M' : Int}
    (hm' : (Repr.mk s' (.fixed f')).minimum = some m')
    (hM' : (Repr.mk s' (.fixed f')).maximum = some M')
    (hmle : m' ≤ low) (hMge : high ≤ M') :
    requiredWidth low high ≤ f'.width := by
  have hw1' : 1 ≤ f'.width := by cases f' <;> decide
  by_cases hneg : low < 0
  · cases s' with
    | false =>
      rw [minimum_unsigned] at hm'
      injection hm' with hm'
      omega
    | true =>
      rw [minimum_signed] at hm'
      rw [maximum_signed] at hM'
      injection hm' with hm'
      injection hM' with hM'
      subst hm'
      subst hM'
      have hlt' : -((2 : Int) ^ (f'.width - 1)) < low :=
        lt_of_le_of_ne hmle (Ne.symm (hpow f'))
      have hp : (0 : Int) < 2 ^ (f'.width - 1) := by positivity
      have hbl : bits low ≤ f'.width - 1 :=
        (bits_le_iff low (f'.width - 1)).mpr ⟨hlt', by linarith⟩
      have hbh : bits high ≤ f'.width - 1 := by
        by_cases hh : 0 ≤ high
        · exact (bits_le_iff high (f'.width - 1)).mpr ⟨by linarith, by linarith⟩
        · have hmono : bits high ≤ bits low := by
            rw [bits, bits]
            exact bitsNat_mono (natAbs_le_natAbs_of_nonpos (by omega) hlh)
          omega
      rw [requiredWidth, if_pos hneg]
      exact max_le (by omega) (by omega)
  · rw [requiredWidth, if_neg hneg]
    have hl0 : (0 : Int) ≤ low := by omega
    cases s' with
    | false =>
      rw [maximum_unsigned] at hM'
      injection hM' with hM'
      subst hM'
      have hp : (0 : Int) < 2 ^ f'.width := by positivity
      exact (bits_le_iff high f'.width).mpr ⟨by linarith, by linarith⟩
    | true =>
      rw [maximum_signed] at hM'
      injection hM' with hM'
      subst hM'
      have hp : (0 : Int) < 2 ^ (f'.width - 1) := by positivity
      have hble : bits high ≤ f'.width - 1 :=
        (bits_le_iff high (f'.width - 1)).mpr ⟨by linarith, by linarith⟩
      omega

/-- Claim C1 (corrected): for `low ≤ high`, any representation automatic
selection returns satisfies native minimum ≤ `low` and native maximum ≥
`high` (unconditional soundness); and provided `low` is not exactly
`-2^(w-1)` for a supported width `w`, whenever any supported fixed-width
representation satisfies both bound comparisons, selection does return a
representation, and its width is no larger than that of any such
representation (totality on fitting pairs plus minimality).  At the
excluded inputs the code overshoots by one width: `(-128, 0)` selects
`i16` though `i8` suffices, and `(-2^127, 0)` returns nothing though
`i128` suffices — see the counterexample. -/
theorem c1_smallest_repr_sound_minimal (low high : Int) (hlh : low ≤ high) :
    (∀ r, Repr.smallest_repr low high = some r →
      ∃ m M, r.minimum = some m ∧ r.maximum = some M ∧ m ≤ low ∧ high ≤ M) ∧
    ((∀ g : ReprSizeFixed, low ≠ -((2 : Int) ^ (g.width - 1))) →
      ∀ (r' : Repr) (m' M' : Int), r'.minimum = some m' → r'.maximum = some M' →
        m' ≤ low → high ≤ M' →
        ∃ r f, Repr.smallest_repr low high = some r ∧ r.size = .fixed f ∧
          ∃ f', r'.size = .fixed f' ∧ f.width ≤ f'.width) := by
  constructor
  · intro r hr
    obtain ⟨hs0, f, hsz0, hreq, hmin⟩ := smallest_repr_some hr
    obtain ⟨rs, rsize⟩ := r
    have hs : rs = decide (low < 0) := hs0
    have hsz : rsize = .fixed f := hsz0
    subst hsz
    have hw1 : 1 ≤ f.width := by cases f <;> decide
    by_cases hneg : low < 0
    · have hrs : rs = true := by simp [hs, hneg]
      subst hrs
      refine ⟨-((2 : Int) ^ (f.width - 1)), (2 : Int) ^ (f.width - 1) - 1,
        minimum_signed f, maximum_signed f, ?_, ?_⟩
      · have hbl : bits low ≤ f.width - 1 := by
          rw [requiredWidth, if_pos hneg] at hreq
          have h := le_trans (Nat.le_max_left (bits low + 1) (bits high + 1)) hreq
          omega
        have h2 := (bits_le_iff low (f.width - 1)).mp hbl
        linarith [h2.1]
      · have hbh : bits high ≤ f.width - 1 := by
          rw [requiredWidth, if_pos hneg] at hreq
          have h := le_trans (Nat.le_max_right (bits low + 1) (bits high + 1)) hreq
          omega
        have h2 := (bits_le_iff high (f.width - 1)).mp hbh
        linarith [h2.2]
    · have hrs : rs = false := by simp [hs, hneg]
      subst hrs
      refine ⟨0, (2 : Int) ^ f.width - 1, minimum_unsigned f, maximum_unsigned f,
        by omega, ?_⟩
      rw [requiredWidth, if_neg hneg] at hreq
      have h2 := (bits_le_iff high f.width).mp hreq
      linarith [h2.2]
  · intro hpow r' m' M' hm' hM' hmle hMge
    obtain ⟨s', sz'⟩ := r'
    cases sz' with
    | pointer =>
      rw [minimum_pointer] at hm'
      exact Option.noConfusion hm'
    | fixed f' =>
      have hreq' : requiredWidth low high ≤ f'.width :=
        requiredWidth_le_of_sound hlh hpow hm' hM' hmle hMge
      have hw128 : f'.width ≤ 128 := by cases f' <;> decide
      cases hr : Repr.smallest_repr low high with
      | none =>
        have hgt := (smallest_repr_none_iff low high).mp hr
        omega
      | some r =>
        obtain ⟨hs0, f, hsz, hreq, hmin⟩ := smallest_repr_some hr
        exact ⟨r, f, rfl, hsz, f', rfl, hmin f'.width (width_mem_supported f') hreq'⟩

/-- Witness for C1 at the range `-3..=1` (where `i8` is selected and is
indeed sound and minimal). -/
theorem c1_witness :
    (∀ r, Repr.smallest_repr (-3) 1 = some r →
      ∃ m M, r.minimum = some m ∧ r.maximum = some M ∧
        m ≤ (-3 : Int) ∧ (1 : Int) ≤ M) ∧
    ((∀ g : ReprSizeFixed, (-3 : Int) ≠ -((2 : Int) ^ (g.width - 1))) →
      ∀ (r' : Repr) (m' M' : Int), r'.minimum = some m' → r'.maximum = some M' →
        m' ≤ (-3 : Int) → (1 : Int) ≤ M' →
        ∃ r f, Repr.smallest_repr (-3) 1 = some r ∧ r.size = .fixed f ∧
          ∃ f', r'.size = .fixed f' ∧ f.width ≤ f'.width) :=
  c1_smallest_repr_sound_minimal (-3) 1 (by decide)

end BoundedInt
